import Mathlib

/-!
# Shipment Slot Allocator — verification of the Line-Of-Balance filler

Shallow embedding of the allocation core of `lob.py` ("Dynamic Stock ETA
Table Generator — Qty/SS Aware (Strict LOB Match)").  The core reads a list
of shipment records (stockcode, supplier, quantity, Qty/SS, ETA date),
keeps only the records whose stockcode appears in the LOB capacity table,
sorts them stably by (stockcode, ETA), and walks each stockcode's row
left-to-right filling empty cells with supplier/date markers, accumulating
partial-shipset leftovers per stockcode.

Cell values are modelled by `PyVal` (the dynamically typed values a pandas
cell can hold as far as `_cell_is_empty` distinguishes them); quantities
are integers and Qty/SS values rationals (Python floats, modelled exactly).
The placement loop carries a ghost `log` recording, for each write, the
column index and the value the cell held immediately before the write; the
log does not influence the computation.
-/

/-- A value held by one cell of the LOB table, as far as `_cell_is_empty`
distinguishes values: Python `None`, a float NaN, an ordinary float, a
string, an int, or any other object (indexed). -/
inductive PyVal where
  | pnone : PyVal
  | nanFloat : PyVal
  | pfloat : ℚ → PyVal
  | pstr : String → PyVal
  | pint : ℤ → PyVal
  | pobj : ℕ → PyVal
deriving DecidableEq

/-- `_cell_is_empty` (lob.py lines 40–48): only `None`, a NaN float, and a
string that strips to `""` count as empty; everything else (including the
text `"Stock"` and any number) is preserved. -/
def cell_is_empty : PyVal → Bool
  | .pnone => true
  | .nanFloat => true
  | .pfloat _ => false
  | .pstr s => s.trim == ""
  | .pint _ => false
  | .pobj _ => false

/-- A parsed ETA date (pandas `Timestamp`), ordered chronologically. -/
structure Date where
  y : ℤ
  m : ℕ
  d : ℕ
deriving DecidableEq

/-- Chronological comparison of dates (lexicographic on year, month, day). -/
def dateLE (a b : Date) : Bool :=
  if a.y ≠ b.y then decide (a.y < b.y)
  else if a.m ≠ b.m then decide (a.m < b.m)
  else decide (a.d ≤ b.d)

/-- ETA comparison used by `sort_values`: missing dates (`NaT`,
`na_position="last"`) sort after every parsed date. -/
def etaLE : Option Date → Option Date → Bool
  | none, none => true
  | none, some _ => false
  | some _, none => true
  | some a, some b => dateLE a b

/-- One validated ETA row as the allocation loop sees it: trimmed
stockcode and supplier strings, integer quantity, positive Qty/SS
(validated upstream), optional parsed ETA. -/
structure Shipment where
  stock : String
  supplier : String
  qty : ℤ
  qpss : ℚ
  eta : Option Date
deriving DecidableEq

/-- The key order of `df_eta_valid.sort_values([stock_col, eta_col],
kind="stable")`: stockcode first, then ETA. -/
def shipLE (a b : Shipment) : Bool :=
  if a.stock = b.stock then etaLE a.eta b.eta
  else decide (a.stock < b.stock)

/-- An ETA row as uploaded, before the Qty/SS validation gate:
`qpss` is `none` when `pd.to_numeric(..., errors="coerce")` produced NaN
(the quantity itself is already coerced: `fillna(0).astype(int)`). -/
structure RawShipment where
  stock : String
  supplier : String
  qty : ℤ
  qpss : Option ℚ
  eta : Option Date
deriving DecidableEq

/-- The default supplier→color table of lob.py. -/
def supplier_colors : List (String × String) :=
  [("Sup1", "#FFD966"), ("Sup2", "#A4C2F4")]

/-- `supplier_colors.get(supplier_name, "#FFFFFF")`. -/
def bgcolorOf (supplier : String) : String :=
  match supplier_colors.lookup supplier with
  | some c => c
  | none => "#FFFFFF"

/-- Zero-padded two-digit rendering used by `strftime`. -/
def pad2 (n : ℕ) : String :=
  if n < 10 then "0" ++ toString n else toString n

/-- `strftime("%m/%d/%y")`. -/
def fmtDate (d : Date) : String :=
  pad2 d.m ++ "/" ++ pad2 d.d ++ "/" ++ pad2 ((d.y % 100).toNat)

/-- ETA rendering in the cell text: formatted date, or `"N/A"` when the
date could not be parsed. -/
def etaText : Option Date → String
  | some d => fmtDate d
  | none => "N/A"

/-- `cell_text = f"{supplier_name}-{eta_str}"`. -/
def cellTextOf (supplier : String) (eta : Option Date) : String :=
  supplier ++ "-" ++ etaText eta

/-- The HTML marker written into a filled cell (lob.py lines 172–174). -/
def markerOf (supplier : String) (eta : Option Date) : PyVal :=
  .pstr ("<div style=\"background-color:" ++ bgcolorOf supplier
    ++ "; padding:4px;\">" ++ cellTextOf supplier eta ++ "</div>")

/-- The marker a shipment writes. -/
def markerFor (sh : Shipment) : PyVal :=
  markerOf sh.supplier sh.eta

/-- `sets = int(qty // qpss)`: whole shipsets covered by the shipment. -/
def setsOf (sh : Shipment) : ℤ :=
  ⌊(sh.qty : ℚ) / sh.qpss⌋

/-- `rem = qty - sets * qpss`: remainder pieces, not enough for a full
shipset. -/
def remOf (sh : Shipment) : ℚ :=
  (sh.qty : ℚ) - (setsOf sh : ℚ) * sh.qpss

/-- State of one stockcode's row during allocation: the row's cells, the
slot cursor `ac_idx`, the stockcode's accumulated leftover, and a ghost
log of writes (column index, value the cell held immediately before). -/
structure RowState where
  cells : List PyVal
  idx : ℕ
  leftover : ℚ
  log : List (ℕ × PyVal)
deriving DecidableEq

/-- The inner skip loop: `while ac_idx < len(ac_columns) and not
_cell_is_empty(...): ac_idx += 1` — the smallest index `≥ i` that is
off the row's end or holds an empty cell. -/
def advance (cells : List PyVal) (i : ℕ) : ℕ :=
  if h : i < cells.length then
    if cell_is_empty (cells.get ⟨i, h⟩) then i else advance cells (i + 1)
  else i
termination_by cells.length - i
decreasing_by simp_wf; omega

/-- The placement loop `while placed < sets and ac_idx < len(ac_columns)`
(lob.py lines 163–176): `n` counts the placements still owed; each
iteration advances to the next empty cell, stops if the row is exhausted,
otherwise writes the marker and moves the cursor past it. -/
def placeN (marker : PyVal) : ℕ → RowState → RowState
  | 0, s => s
  | n + 1, s =>
    let j := advance s.cells s.idx
    if h : j < s.cells.length then
      placeN marker n
        { cells := s.cells.set j marker
          idx := j + 1
          leftover := s.leftover
          log := s.log ++ [(j, s.cells.get ⟨j, h⟩)] }
    else
      { s with idx := j }

/-- Processing of one ETA row inside a stockcode group (lob.py lines
144–180): skip non-positive quantities, compute shipsets and remainder,
place the marker `sets` times, then accumulate the remainder into the
stockcode's leftover when positive. -/
def processShipment (sh : Shipment) (s : RowState) : RowState :=
  if sh.qty ≤ 0 then s
  else
    let s1 := placeN (markerFor sh) (setsOf sh).toNat s
    if remOf sh > 0 then { s1 with leftover := s1.leftover + remOf sh } else s1

/-- What one shipment adds to its stockcode's leftover total: the
remainder, when the shipment is processed (`qty > 0`) and the remainder is
positive. -/
def contribOf (sh : Shipment) : ℚ :=
  if 0 < sh.qty ∧ 0 < remOf sh then remOf sh else 0

/-- Process a group's shipments in order against one row state. -/
def runShipments (ships : List Shipment) (s : RowState) : RowState :=
  ships.foldl (fun s sh => processShipment sh s) s

/-- One stockcode's whole group: find the first empty cell once
(lob.py lines 139–141), then process the group's shipments in order. -/
def processRow (ships : List Shipment) (cells : List PyVal) (lo : ℚ) : RowState :=
  runShipments ships
    { cells := cells, idx := advance cells 0, leftover := lo, log := [] }

/-- The Qty/SS validation gate (lob.py lines 82–89): a row is bad when its
Qty/SS is missing (NaN) or `≤ 0`. -/
def qpssOk : Option ℚ → Bool
  | none => false
  | some x => decide (0 < x)

/-- Ingestion after the gate: if any row has a bad Qty/SS the app shows an
error and stops (`st.stop()`, modelled as `none`); otherwise every row
becomes a validated `Shipment`. -/
def validateETA (l : List RawShipment) : Option (List Shipment) :=
  if l.all (fun r => qpssOk r.qpss) then
    some (l.map (fun r => ⟨r.stock, r.supplier, r.qty, r.qpss.getD 0, r.eta⟩))
  else none

/-- Strict LOB match (lob.py line 118): keep only records whose stockcode
is a row of the LOB table. -/
def validShips (ships : List Shipment) (tkeys : List String) : List Shipment :=
  ships.filter (fun sh => decide (sh.stock ∈ tkeys))

/-- The sequenced shipment list: strict match, then the stable sort
`sort_values([stock_col, eta_col], kind="stable")`. -/
def sequenced (ships : List Shipment) (tkeys : List String) : List Shipment :=
  List.insertionSort (fun a b => shipLE a b = true) (validShips ships tkeys)

/-- `Series.unique()`: distinct values in order of first appearance. -/
def uniqList : List String → List String
  | [] => []
  | x :: xs => x :: (uniqList xs).filter (fun y => y ≠ x)

/-- The ignored stockcodes (lob.py line 119):
`sorted(set(df_eta[stock_col]) - present_stockcodes)`. -/
def ignoredOf (ships : List Shipment) (tkeys : List String) : List String :=
  List.insertionSort (· ≤ ·)
    (uniqList ((ships.map (fun sh => sh.stock)).filter (fun st => decide (st ∉ tkeys))))

/-- The LOB table keeps rows in order, each a stockcode with its A/C#
cells; `lookupRow` is `styled_table.loc[stock]`, the first row carrying
the stockcode. -/
def lookupRow : List (String × List PyVal) → String → List PyVal
  | [], _ => []
  | p :: rest, k => if p.1 = k then p.2 else lookupRow rest k

/-- Write a row back into the table (`styled_table.loc[stock, ...]`). -/
def setRow (t : List (String × List PyVal)) (k : String) (cs : List PyVal) :
    List (String × List PyVal) :=
  t.map (fun p => if p.1 = k then (p.1, cs) else p)

/-- The outcome of one allocation run: the mutated table, the leftover
report in insertion order, and a ghost per-stockcode write log. -/
structure RunResult where
  table : List (String × List PyVal)
  leftovers : List (String × ℚ)
  logs : List (String × List (ℕ × PyVal))
deriving DecidableEq

/-- The outer loop `for stock in df_eta_valid[stock_col].unique()`:
process each stockcode's group against its row, write the row back, and
record the stockcode's leftover when positive (`leftovers[stock] =
leftovers.get(stock, 0) + rem` yields one entry per stockcode with a
positive total, in processing order). -/
def allocLoop (seq : List Shipment) : List String → RunResult → RunResult
  | [], acc => acc
  | stock :: rest, acc =>
    let rs := processRow (seq.filter (fun sh => sh.stock == stock))
      (lookupRow acc.table stock) 0
    allocLoop seq rest
      { table := setRow acc.table stock rs.cells
        leftovers :=
          if rs.leftover > 0 then acc.leftovers ++ [(stock, rs.leftover)]
          else acc.leftovers
        logs := acc.logs ++ [(stock, rs.log)] }

/-- One whole allocation run over a loaded LOB table and the uploaded
(validated) ETA records. -/
def allocRun (t : List (String × List PyVal)) (ships : List Shipment) : RunResult :=
  let seq := sequenced ships (t.map Prod.fst)
  allocLoop seq (uniqList (seq.map (fun sh => sh.stock))) ⟨t, [], []⟩

/-- Modelled from the spec: the slot computation of §4.3 with the
spec's optional `piecesPerUnit`.  The variant in `src/lob.py` has no unit
mode (Qty/SS is mandatory there); the spec defines *unit mode* for records
with `piecesPerUnit` absent: `slotsNeeded = quantityPieces`, no leftover
concept. -/
def slotsNeededSpec (qty : ℤ) : Option ℚ → ℤ
  | none => qty
  | some p => ⌊(qty : ℚ) / p⌋

/-- Modelled from the spec: processing of one shipment under §4.3, both
modes.  Shipset mode follows the source; unit mode places
`quantityPieces` markers and touches no leftover. -/
def processShipmentSpec (r : RawShipment) (s : RowState) : RowState :=
  if r.qty ≤ 0 then s
  else
    let sets := slotsNeededSpec r.qty r.qpss
    let s1 := placeN (markerOf r.supplier r.eta) sets.toNat s
    match r.qpss with
    | none => s1
    | some p =>
      let rem := (r.qty : ℚ) - (sets : ℚ) * p
      if rem > 0 then { s1 with leftover := s1.leftover + rem } else s1

/-! ## Cursor and placement-loop lemmas -/

/-- The skip loop never moves the cursor backwards. -/
theorem advance_ge (cells : List PyVal) (i : ℕ) : i ≤ advance cells i := by
  rw [advance]
  split
  next h =>
    split
    next => exact Nat.le_refl i
    next => exact Nat.le_trans (Nat.le_succ i) (advance_ge cells (i + 1))
  next => exact Nat.le_refl i
termination_by cells.length - i
decreasing_by simp_wf; omega

/-- When the skip loop stops inside the row, it stops on an empty cell. -/
theorem advance_empty (cells : List PyVal) (i : ℕ) (v : PyVal)
    (hv : cells.get? (advance cells i) = some v) : cell_is_empty v = true := by
  rw [advance] at hv
  split at hv
  next h =>
    split at hv
    next hemp =>
      rw [List.get?_eq_get h] at hv
      cases hv
      exact hemp
    next => exact advance_empty cells (i + 1) v hv
  next h =>
    rw [List.get?_eq_none.2 (by omega)] at hv
    cases hv
termination_by cells.length - i
decreasing_by simp_wf; omega

/-- When no cell at or after `i` is empty, the skip loop runs off the
row's end. -/
theorem advance_full (cells : List PyVal) (i : ℕ)
    (hfull : ∀ j (h : j < cells.length), i ≤ j →
      cell_is_empty (cells.get ⟨j, h⟩) = false) :
    cells.length ≤ advance cells i := by
  rw [advance]
  split
  next h =>
    split
    next hemp => rw [hfull i h (Nat.le_refl i)] at hemp; cases hemp
    next =>
      exact advance_full cells (i + 1) (fun j hj hij => hfull j hj (by omega))
  next h => omega
termination_by cells.length - i
decreasing_by simp_wf; omega

/-- Combined behaviour of the placement loop: the leftover and the row
length are untouched, the cursor only moves forward, and the log grows by
a block of writes each hitting an empty in-range cell at a strictly
increasing index in `[idx, idx')`. -/
theorem placeN_spec (m : PyVal) (n : ℕ) (s : RowState) :
    (placeN m n s).leftover = s.leftover ∧
    (placeN m n s).cells.length = s.cells.length ∧
    s.idx ≤ (placeN m n s).idx ∧
    ∃ l, (placeN m n s).log = s.log ++ l ∧
      (∀ e ∈ l, cell_is_empty e.2 = true ∧ s.idx ≤ e.1 ∧
        e.1 < (placeN m n s).idx ∧ e.1 < s.cells.length) ∧
      (l.map Prod.fst).Pairwise (· < ·) := by
  induction n generalizing s with
  | zero => exact ⟨rfl, rfl, Nat.le_refl _, [], by simp [placeN], by simp, List.Pairwise.nil⟩
  | succ n ih =>
    rw [placeN]
    split
    next h =>
      obtain ⟨hlo, hlen, hidx, l, hlog, hent, hpw⟩ :=
        ih { cells := s.cells.set (advance s.cells s.idx) m
             idx := advance s.cells s.idx + 1
             leftover := s.leftover
             log := s.log ++ [(advance s.cells s.idx,
               s.cells.get ⟨advance s.cells s.idx, h⟩)] }
      have hj : s.idx ≤ advance s.cells s.idx := advance_ge s.cells s.idx
      have hemp : cell_is_empty (s.cells.get ⟨advance s.cells s.idx, h⟩) = true :=
        advance_empty s.cells s.idx _ (List.get?_eq_get h)
      have hlen' : (s.cells.set (advance s.cells s.idx) m).length = s.cells.length :=
        List.length_set s.cells _ _
      have hidx' : advance s.cells s.idx + 1 ≤ _ := hidx
      refine ⟨hlo, hlen.trans hlen', by omega,
        (advance s.cells s.idx, s.cells.get ⟨advance s.cells s.idx, h⟩) :: l,
        ?_, ?_, ?_⟩
      · rw [hlog]; simp
      · intro e he
        rcases List.mem_cons.1 he with he | he
        · subst he
          refine ⟨hemp, hj, by omega, h⟩
        · obtain ⟨h1, h2, h3, h4⟩ := hent e he
          have h2' : advance s.cells s.idx + 1 ≤ e.1 := h2
          have h4' : e.1 < (s.cells.set (advance s.cells s.idx) m).length := h4
          rw [hlen'] at h4'
          exact ⟨h1, by omega, h3, h4'⟩
      · refine List.Pairwise.cons ?_ hpw
        intro x hx
        obtain ⟨e, he, hex⟩ := List.mem_map.1 hx
        obtain ⟨_, h2, _, _⟩ := hent e he
        have h2' : advance s.cells s.idx + 1 ≤ e.1 := h2
        omega
    next =>
      exact ⟨rfl, rfl, advance_ge s.cells s.idx, [], by simp, by simp,
        List.Pairwise.nil⟩

/-- The placement loop never changes a non-empty cell: every write targets
a cell that is empty at write time. -/
theorem placeN_preserve (m : PyVal) (n : ℕ) (s : RowState) (i : ℕ) (v : PyVal)
    (hv : s.cells.get? i = some v) (hne : cell_is_empty v = false) :
    (placeN m n s).cells.get? i = some v := by
  induction n generalizing s with
  | zero => exact hv
  | succ n ih =>
    rw [placeN]
    split
    next h =>
      apply ih
      have hji : advance s.cells s.idx ≠ i := by
        intro hji
        have hemp : cell_is_empty (s.cells.get ⟨advance s.cells s.idx, h⟩) = true :=
          advance_empty s.cells s.idx _ (List.get?_eq_get h)
        rw [← hji, List.get?_eq_get h] at hv
        cases hv
        rw [hemp] at hne
        cases hne
      show (s.cells.set (advance s.cells s.idx) m).get? i = some v
      rw [List.get?_eq_getElem?, List.getElem?_set_ne hji,
        ← List.get?_eq_getElem?]
      exact hv
    next => exact hv

/-! ## Per-shipment and per-group lemmas -/

/-- Unfolding of `processShipment` on a processed (positive-quantity)
shipment. -/
theorem processShipment_eq_pos (sh : Shipment) (s : RowState) (hq : ¬ sh.qty ≤ 0) :
    processShipment sh s =
      if remOf sh > 0 then
        { placeN (markerFor sh) (setsOf sh).toNat s with
          leftover := (placeN (markerFor sh) (setsOf sh).toNat s).leftover + remOf sh }
      else placeN (markerFor sh) (setsOf sh).toNat s := by
  unfold processShipment
  rw [if_neg hq]

/-- Unfolding of `processShipment` on a skipped shipment (`qty <= 0`). -/
theorem processShipment_eq_nonpos (sh : Shipment) (s : RowState) (hq : sh.qty ≤ 0) :
    processShipment sh s = s := by
  unfold processShipment
  rw [if_pos hq]

/-- Combined behaviour of one shipment: the leftover grows by exactly
`contribOf`, the row length is untouched, the cursor only moves forward,
and the log grows by a block of writes hitting empty in-range cells at
strictly increasing indices in `[idx, idx')`. -/
theorem processShipment_spec (sh : Shipment) (s : RowState) :
    (processShipment sh s).leftover = s.leftover + contribOf sh ∧
    (processShipment sh s).cells.length = s.cells.length ∧
    s.idx ≤ (processShipment sh s).idx ∧
    ∃ l, (processShipment sh s).log = s.log ++ l ∧
      (∀ e ∈ l, cell_is_empty e.2 = true ∧ s.idx ≤ e.1 ∧
        e.1 < (processShipment sh s).idx ∧ e.1 < s.cells.length) ∧
      (l.map Prod.fst).Pairwise (· < ·) := by
  by_cases hq : sh.qty ≤ 0
  · rw [processShipment_eq_nonpos sh s hq]
    have hc : contribOf sh = 0 := by
      unfold contribOf
      rw [if_neg]
      rintro ⟨h1, _⟩
      omega
    rw [hc]
    exact ⟨(add_zero _).symm, rfl, Nat.le_refl _, [], (List.append_nil _).symm,
      by simp, List.Pairwise.nil⟩
  · obtain ⟨hlo, hlen, hidx, l, hlog, hent, hpw⟩ :=
      placeN_spec (markerFor sh) (setsOf sh).toNat s
    have he := processShipment_eq_pos sh s hq
    by_cases hr : remOf sh > 0
    · rw [if_pos hr] at he
      rw [he]
      have hc : contribOf sh = remOf sh := by
        unfold contribOf
        rw [if_pos ⟨by omega, hr⟩]
      rw [hc]
      refine ⟨?_, hlen, hidx, l, hlog, hent, hpw⟩
      show (placeN (markerFor sh) (setsOf sh).toNat s).leftover + remOf sh
        = s.leftover + remOf sh
      rw [hlo]
    · rw [if_neg hr] at he
      rw [he]
      have hc : contribOf sh = 0 := by
        unfold contribOf
        rw [if_neg]
        rintro ⟨_, h2⟩
        exact hr h2
      rw [hc]
      exact ⟨hlo.trans (add_zero _).symm, hlen, hidx, l, hlog, hent, hpw⟩

/-- One shipment never changes a non-empty cell. -/
theorem processShipment_preserve (sh : Shipment) (s : RowState) (i : ℕ) (v : PyVal)
    (hv : s.cells.get? i = some v) (hne : cell_is_empty v = false) :
    (processShipment sh s).cells.get? i = some v := by
  by_cases hq : sh.qty ≤ 0
  · rw [processShipment_eq_nonpos sh s hq]; exact hv
  · have he := processShipment_eq_pos sh s hq
    by_cases hr : remOf sh > 0
    · rw [if_pos hr] at he
      rw [he]
      exact placeN_preserve _ _ s i v hv hne
    · rw [if_neg hr] at he
      rw [he]
      exact placeN_preserve _ _ s i v hv hne

/-- `processShipment_spec`, folded over a whole stockcode group. -/
theorem runShipments_spec (ships : List Shipment) (s : RowState) :
    (runShipments ships s).leftover = s.leftover + (ships.map contribOf).sum ∧
    (runShipments ships s).cells.length = s.cells.length ∧
    s.idx ≤ (runShipments ships s).idx ∧
    ∃ l, (runShipments ships s).log = s.log ++ l ∧
      (∀ e ∈ l, cell_is_empty e.2 = true ∧ s.idx ≤ e.1 ∧
        e.1 < (runShipments ships s).idx ∧ e.1 < s.cells.length) ∧
      (l.map Prod.fst).Pairwise (· < ·) := by
  induction ships generalizing s with
  | nil =>
    exact ⟨by simp [runShipments], rfl, Nat.le_refl _, [], (List.append_nil _).symm,
      by simp, List.Pairwise.nil⟩
  | cons sh rest ih =>
    have hrun : runShipments (sh :: rest) s = runShipments rest (processShipment sh s) := rfl
    obtain ⟨hlo1, hlen1, hidx1, l1, hlog1, hent1, hpw1⟩ := processShipment_spec sh s
    obtain ⟨hlo2, hlen2, hidx2, l2, hlog2, hent2, hpw2⟩ := ih (processShipment sh s)
    rw [hrun]
    refine ⟨?_, hlen2.trans hlen1, Nat.le_trans hidx1 hidx2, l1 ++ l2, ?_, ?_, ?_⟩
    · rw [hlo2, hlo1]
      simp [add_assoc]
    · rw [hlog2, hlog1, List.append_assoc]
    · intro e he
      rcases List.mem_append.1 he with he | he
      · obtain ⟨h1, h2, h3, h4⟩ := hent1 e he
        exact ⟨h1, h2, Nat.lt_of_lt_of_le h3 hidx2, h4⟩
      · obtain ⟨h1, h2, h3, h4⟩ := hent2 e he
        exact ⟨h1, Nat.le_trans hidx1 h2, h3, by rw [← hlen1]; exact h4⟩
    · rw [List.map_append]
      refine List.pairwise_append.2 ⟨hpw1, hpw2, ?_⟩
      intro a ha b hb
      obtain ⟨e1, he1, hx1⟩ := List.mem_map.1 ha
      obtain ⟨e2, he2, hx2⟩ := List.mem_map.1 hb
      obtain ⟨_, _, h3, _⟩ := hent1 e1 he1
      obtain ⟨_, h2', _, _⟩ := hent2 e2 he2
      have : e1.1 < e2.1 := Nat.lt_of_lt_of_le h3 h2'
      omega

/-- A whole group never changes a non-empty cell. -/
theorem runShipments_preserve (ships : List Shipment) (s : RowState) (i : ℕ)
    (v : PyVal) (hv : s.cells.get? i = some v) (hne : cell_is_empty v = false) :
    (runShipments ships s).cells.get? i = some v := by
  induction ships generalizing s with
  | nil => exact hv
  | cons sh rest ih =>
    have hrun : runShipments (sh :: rest) s = runShipments rest (processShipment sh s) := rfl
    rw [hrun]
    exact ih _ (processShipment_preserve sh s i v hv hne)

/-! ## Shipset arithmetic -/

/-- The shipset remainder is nonnegative whenever Qty/SS is positive. -/
theorem remOf_nonneg (sh : Shipment) (hp : 0 < sh.qpss) : 0 ≤ remOf sh := by
  unfold remOf setsOf
  have h1 : (⌊(sh.qty : ℚ) / sh.qpss⌋ : ℚ) ≤ (sh.qty : ℚ) / sh.qpss :=
    Int.floor_le _
  have h2 : (⌊(sh.qty : ℚ) / sh.qpss⌋ : ℚ) * sh.qpss
      ≤ ((sh.qty : ℚ) / sh.qpss) * sh.qpss :=
    mul_le_mul_of_nonneg_right h1 (le_of_lt hp)
  rw [div_mul_cancel₀ _ (ne_of_gt hp)] at h2
  linarith

/-- Defining identity of the remainder. -/
theorem sets_mul_add_rem (sh : Shipment) :
    (setsOf sh : ℚ) * sh.qpss + remOf sh = (sh.qty : ℚ) := by
  unfold remOf
  ring

/-- Under the validated preconditions (`qty ≥ 0`, Qty/SS `> 0`) the
leftover contribution of a shipment is exactly its remainder. -/
theorem contribOf_eq_remOf (sh : Shipment) (hq : 0 ≤ sh.qty) (hp : 0 < sh.qpss) :
    contribOf sh = remOf sh := by
  unfold contribOf
  by_cases hr : 0 < remOf sh
  · by_cases hq1 : 0 < sh.qty
    · rw [if_pos ⟨hq1, hr⟩]
    · have hq0 : sh.qty = 0 := le_antisymm (Int.not_lt.1 hq1) hq
      have h0 : remOf sh = 0 := by
        simp [remOf, setsOf, hq0]
      rw [h0] at hr
      exact absurd hr (lt_irrefl 0)
  · have h0 : remOf sh = 0 := le_antisymm (not_lt.1 hr) (remOf_nonneg sh hp)
    rw [if_neg, h0]
    rintro ⟨_, h2⟩
    exact hr h2

/-- Shipset conservation, summed: whole shipsets (in pieces) plus
remainders add up to the quantities shipped. -/
theorem sum_sets_rem (ships : List Shipment) :
    (ships.map (fun sh => (setsOf sh : ℚ) * sh.qpss)).sum
      + (ships.map remOf).sum
      = (ships.map (fun sh => (sh.qty : ℚ))).sum := by
  induction ships with
  | nil => simp
  | cons sh rest ih =>
    simp only [List.map_cons, List.sum_cons]
    have h := sets_mul_add_rem sh
    linarith

/-! ## Row-level corollaries -/

/-- The leftover accumulated by one stockcode's group. -/
theorem processRow_leftover (ships : List Shipment) (cells : List PyVal) (lo : ℚ) :
    (processRow ships cells lo).leftover = lo + (ships.map contribOf).sum :=
  (runShipments_spec ships _).1

/-- A group never changes the number of columns. -/
theorem processRow_length (ships : List Shipment) (cells : List PyVal) (lo : ℚ) :
    (processRow ships cells lo).cells.length = cells.length :=
  (runShipments_spec ships _).2.1

/-- The write log of one stockcode's group: every write hit an in-range
cell that was empty immediately before, and the written column indices are
strictly increasing. -/
theorem processRow_log_good (ships : List Shipment) (cells : List PyVal) (lo : ℚ) :
    (∀ e ∈ (processRow ships cells lo).log,
      cell_is_empty e.2 = true ∧ e.1 < cells.length) ∧
    ((processRow ships cells lo).log.map Prod.fst).Pairwise (· < ·) := by
  obtain ⟨-, -, -, l, hlog, hent, hpw⟩ := runShipments_spec ships
    { cells := cells, idx := advance cells 0, leftover := lo, log := [] }
  have hlog' : (processRow ships cells lo).log = l := by
    rw [show (processRow ships cells lo).log = [] ++ l from hlog, List.nil_append]
  rw [hlog']
  exact ⟨fun e he => ⟨(hent e he).1, (hent e he).2.2.2⟩, hpw⟩

/-- A group never changes a non-empty cell of its row. -/
theorem processRow_preserve (ships : List Shipment) (cells : List PyVal) (lo : ℚ)
    (i : ℕ) (v : PyVal) (hv : cells.get? i = some v)
    (hne : cell_is_empty v = false) :
    (processRow ships cells lo).cells.get? i = some v :=
  runShipments_preserve ships _ i v hv hne

/-! ## Table lemmas -/

/-- `unique()` emits no value twice. -/
theorem uniqList_nodup (l : List String) : (uniqList l).Nodup := by
  induction l with
  | nil => exact List.nodup_nil
  | cons y ys ih =>
    refine List.nodup_cons.2 ⟨?_, ih.filter _⟩
    intro hmem
    have h := List.of_mem_filter hmem
    simp at h

/-- `unique()` emits exactly the values of the series. -/
theorem mem_uniqList (l : List String) (x : String) : x ∈ uniqList l ↔ x ∈ l := by
  induction l with
  | nil => exact Iff.rfl
  | cons y ys ih =>
    show x ∈ y :: (uniqList ys).filter (fun z => z ≠ y) ↔ x ∈ y :: ys
    simp only [List.mem_cons, List.mem_filter, ih, decide_eq_true_eq]
    by_cases hxy : x = y
    · simp [hxy]
    · simp [hxy]

/-- Writing one row keeps the row keys. -/
theorem setRow_keys (t : List (String × List PyVal)) (k : String) (cs : List PyVal) :
    (setRow t k cs).map Prod.fst = t.map Prod.fst := by
  induction t with
  | nil => rfl
  | cons p rest ih =>
    show (if p.1 = k then (p.1, cs) else p).1 :: (setRow rest k cs).map Prod.fst
      = p.1 :: rest.map Prod.fst
    rw [ih]
    by_cases hp : p.1 = k
    · rw [if_pos hp]
    · rw [if_neg hp]

/-- Writing one row leaves every other row unchanged. -/
theorem lookupRow_setRow_ne (t : List (String × List PyVal)) (k k' : String)
    (cs : List PyVal) (h : k' ≠ k) :
    lookupRow (setRow t k cs) k' = lookupRow t k' := by
  induction t with
  | nil => rfl
  | cons p rest ih =>
    show lookupRow ((if p.1 = k then (p.1, cs) else p) :: setRow rest k cs) k'
      = lookupRow (p :: rest) k'
    by_cases hp : p.1 = k
    · rw [if_pos hp]
      show (if p.1 = k' then cs else lookupRow (setRow rest k cs) k')
        = (if p.1 = k' then p.2 else lookupRow rest k')
      rw [if_neg (by rw [hp]; exact fun hh => h hh.symm),
        if_neg (by rw [hp]; exact fun hh => h hh.symm)]
      exact ih
    · rw [if_neg hp]
      show (if p.1 = k' then p.2 else lookupRow (setRow rest k cs) k')
        = (if p.1 = k' then p.2 else lookupRow rest k')
      by_cases hp' : p.1 = k'
      · rw [if_pos hp', if_pos hp']
      · rw [if_neg hp', if_neg hp']
        exact ih

/-- Writing a present row makes the write visible. -/
theorem lookupRow_setRow_self (t : List (String × List PyVal)) (k : String)
    (cs : List PyVal) (hmem : k ∈ t.map Prod.fst) :
    lookupRow (setRow t k cs) k = cs := by
  induction t with
  | nil => cases hmem
  | cons p rest ih =>
    show lookupRow ((if p.1 = k then (p.1, cs) else p) :: setRow rest k cs) k = cs
    by_cases hp : p.1 = k
    · rw [if_pos hp]
      show (if p.1 = k then cs else lookupRow (setRow rest k cs) k) = cs
      rw [if_pos hp]
    · rw [if_neg hp]
      show (if p.1 = k then p.2 else lookupRow (setRow rest k cs) k) = cs
      rw [if_neg hp]
      rcases List.mem_cons.1 hmem with hk | hk
      · exact absurd hk.symm hp
      · exact ih hk

/-- Writing an absent row is a no-op. -/
theorem setRow_not_mem (t : List (String × List PyVal)) (k : String)
    (cs : List PyVal) (hmem : k ∉ t.map Prod.fst) :
    setRow t k cs = t := by
  induction t with
  | nil => rfl
  | cons p rest ih =>
    show (if p.1 = k then (p.1, cs) else p) :: setRow rest k cs = p :: rest
    rw [if_neg (fun hp => hmem (by rw [← hp]; exact List.mem_cons_self _ _)),
      ih (fun hk => hmem (List.mem_cons_of_mem _ hk))]

/-! ## Run-level lemmas -/

/-- Along the outer stock loop, every recorded group log consists of
writes to cells that were empty immediately before, at strictly
increasing column indices, and no stockcode is logged twice. -/
theorem allocLoop_logs_good (seq : List Shipment) (stocks : List String)
    (acc : RunResult)
    (hnd : (acc.logs.map Prod.fst ++ stocks).Nodup)
    (hgood : ∀ p ∈ acc.logs, (∀ e ∈ p.2, cell_is_empty e.2 = true) ∧
      (p.2.map Prod.fst).Pairwise (· < ·)) :
    (∀ p ∈ (allocLoop seq stocks acc).logs,
      (∀ e ∈ p.2, cell_is_empty e.2 = true) ∧
      (p.2.map Prod.fst).Pairwise (· < ·)) ∧
    ((allocLoop seq stocks acc).logs.map Prod.fst).Nodup := by
  induction stocks generalizing acc with
  | nil =>
    rw [List.append_nil] at hnd
    exact ⟨fun p hp => hgood p hp, hnd⟩
  | cons stock rest ih =>
    show (∀ p ∈ (allocLoop seq rest _).logs, _) ∧ _
    apply ih
    · show ((acc.logs ++ [(stock, _)]).map Prod.fst ++ rest).Nodup
      rw [List.map_append, List.append_assoc]
      simpa using hnd
    · intro p hp
      rcases List.mem_append.1 hp with hp | hp
      · exact hgood p hp
      · rcases List.mem_singleton.1 hp with rfl
        obtain ⟨hent, hpw⟩ := processRow_log_good
          (seq.filter (fun sh => sh.stock == stock)) (lookupRow acc.table stock) 0
        exact ⟨fun e he => (hent e he).1, hpw⟩

/-- Along the outer stock loop, a cell holding a non-empty value keeps it:
placements never overwrite occupied or reserved cells. -/
theorem allocLoop_preserve (seq : List Shipment) (stocks : List String)
    (acc : RunResult) (k : String) (i : ℕ) (v : PyVal)
    (hv : (lookupRow acc.table k).get? i = some v)
    (hne : cell_is_empty v = false) :
    (lookupRow (allocLoop seq stocks acc).table k).get? i = some v := by
  induction stocks generalizing acc with
  | nil => exact hv
  | cons stock rest ih =>
    show (lookupRow (allocLoop seq rest _).table k).get? i = some v
    apply ih
    show (lookupRow (setRow acc.table stock _) k).get? i = some v
    by_cases hk : k = stock
    · subst hk
      by_cases hmem : k ∈ acc.table.map Prod.fst
      · rw [lookupRow_setRow_self acc.table k _ hmem]
        exact processRow_preserve _ _ _ i v hv hne
      · rw [setRow_not_mem acc.table k _ hmem]
        exact hv
    · rw [lookupRow_setRow_ne acc.table stock k _ hk]
      exact hv

/-- Strictly increasing per-row column indices plus distinct stockcodes
give a run without any repeated (stockcode, column) write. -/
theorem logs_flat_nodup (logs : List (String × List (ℕ × PyVal)))
    (h1 : (logs.map Prod.fst).Nodup)
    (h2 : ∀ p ∈ logs, (p.2.map Prod.fst).Pairwise (· < ·)) :
    (logs.flatMap (fun p => p.2.map (fun e => (p.1, e.1)))).Nodup := by
  rw [List.nodup_flatMap]
  constructor
  · intro p hp
    have hlt : p.2.Pairwise (fun a b => a.1 < b.1) := List.pairwise_map.1 (h2 p hp)
    show ((p.2.map (fun e => (p.1, e.1))).Pairwise (· ≠ ·))
    rw [List.pairwise_map]
    refine hlt.imp ?_
    intro a b hab
    simp only [ne_eq, Prod.mk.injEq, not_and]
    intro _
    omega
  · have h1' : logs.Pairwise (fun p q => p.1 ≠ q.1) := List.pairwise_map.1 h1
    refine h1'.imp ?_
    intro p q hne
    intro a ha hb
    obtain ⟨e1, _, he1⟩ := List.mem_map.1 ha
    obtain ⟨e2, _, he2⟩ := List.mem_map.1 hb
    apply hne
    rw [← he2] at he1
    exact (Prod.mk.injEq _ _ _ _ ▸ he1).1

/-! ## Table-full behaviour -/

/-- With no eligible cell at or after the cursor, the placement loop
writes nothing: no cells change, no log entry, no leftover change. -/
theorem placeN_full (m : PyVal) (n : ℕ) (s : RowState)
    (hfull : ∀ j (h : j < s.cells.length), s.idx ≤ j →
      cell_is_empty (s.cells.get ⟨j, h⟩) = false) :
    (placeN m n s).cells = s.cells ∧ (placeN m n s).log = s.log ∧
    (placeN m n s).leftover = s.leftover := by
  have hadv : s.cells.length ≤ advance s.cells s.idx :=
    advance_full s.cells s.idx hfull
  cases n with
  | zero => exact ⟨rfl, rfl, rfl⟩
  | succ n =>
    rw [placeN]
    split
    next h => omega
    next => exact ⟨rfl, rfl, rfl⟩

/-- A shipment arriving at a full row is dropped silently: the table and
the log are untouched, and the leftover still receives exactly the shipset
remainder contribution. -/
theorem processShipment_full (sh : Shipment) (s : RowState)
    (hfull : ∀ j (h : j < s.cells.length), s.idx ≤ j →
      cell_is_empty (s.cells.get ⟨j, h⟩) = false) :
    (processShipment sh s).cells = s.cells ∧
    (processShipment sh s).log = s.log ∧
    (processShipment sh s).leftover = s.leftover + contribOf sh := by
  by_cases hq : sh.qty ≤ 0
  · rw [processShipment_eq_nonpos sh s hq]
    refine ⟨rfl, rfl, ?_⟩
    have hc : contribOf sh = 0 := by
      unfold contribOf
      rw [if_neg]
      rintro ⟨h1, -⟩
      omega
    rw [hc, add_zero]
  · obtain ⟨hc, hl, hlo⟩ := placeN_full (markerFor sh) (setsOf sh).toNat s hfull
    have he := processShipment_eq_pos sh s hq
    by_cases hr : remOf sh > 0
    · rw [if_pos hr] at he
      rw [he]
      refine ⟨hc, hl, ?_⟩
      show (placeN (markerFor sh) (setsOf sh).toNat s).leftover + remOf sh = _
      rw [hlo]
      have hcv : contribOf sh = remOf sh := by
        unfold contribOf
        rw [if_pos ⟨by omega, hr⟩]
      rw [hcv]
    · rw [if_neg hr] at he
      rw [he]
      refine ⟨hc, hl, ?_⟩
      rw [hlo]
      have hcv : contribOf sh = 0 := by
        unfold contribOf
        rw [if_neg]
        rintro ⟨-, h2⟩
        exact hr h2
      rw [hcv, add_zero]

/-! ## Order lemmas for the sequencer -/

/-- `dateLE` is reflexive on equal dates by construction. -/
theorem dateLE_refl (a : Date) : dateLE a a = true := by
  unfold dateLE
  simp

/-- `dateLE` is total. -/
theorem dateLE_total (a b : Date) : dateLE a b = true ∨ dateLE b a = true := by
  unfold dateLE
  split_ifs <;> simp only [decide_eq_true_eq] <;> omega

/-- `dateLE` is transitive. -/
theorem dateLE_trans (a b c : Date) (h1 : dateLE a b = true)
    (h2 : dateLE b c = true) : dateLE a c = true := by
  unfold dateLE at h1 h2 ⊢
  split_ifs at h1 h2 ⊢ <;>
    simp only [decide_eq_true_eq] at h1 h2 ⊢ <;> omega

/-- `etaLE` is total. -/
theorem etaLE_total (x y : Option Date) : etaLE x y = true ∨ etaLE y x = true := by
  match x, y with
  | none, none => exact Or.inl rfl
  | none, some _ => exact Or.inr rfl
  | some _, none => exact Or.inl rfl
  | some a, some b => exact dateLE_total a b

/-- `etaLE` is transitive. -/
theorem etaLE_trans (x y z : Option Date) (h1 : etaLE x y = true)
    (h2 : etaLE y z = true) : etaLE x z = true := by
  match x, y, z with
  | none, none, z => exact h2
  | none, some _, _ => simp [etaLE] at h1
  | some a, none, none => exact rfl
  | some a, none, some c => simp [etaLE] at h2
  | some a, some b, none => exact rfl
  | some a, some b, some c => exact dateLE_trans a b c h1 h2

/-- The sequencer's key order is total. -/
theorem shipLE_total (a b : Shipment) : shipLE a b = true ∨ shipLE b a = true := by
  unfold shipLE
  by_cases hab : a.stock = b.stock
  · rw [if_pos hab, if_pos hab.symm]
    exact etaLE_total a.eta b.eta
  · rw [if_neg hab, if_neg (fun h => hab h.symm)]
    rcases lt_or_gt_of_ne hab with h | h
    · exact Or.inl (decide_eq_true h)
    · exact Or.inr (decide_eq_true h)

/-- The sequencer's key order is transitive. -/
theorem shipLE_trans (a b c : Shipment) (h1 : shipLE a b = true)
    (h2 : shipLE b c = true) : shipLE a c = true := by
  unfold shipLE at h1 h2 ⊢
  by_cases hab : a.stock = b.stock
  · rw [if_pos hab] at h1
    by_cases hbc : b.stock = c.stock
    · rw [if_pos hbc] at h2
      rw [if_pos (hab.trans hbc)]
      exact etaLE_trans _ _ _ h1 h2
    · rw [if_neg hbc] at h2
      rw [if_neg (fun h => hbc (hab.symm.trans h)), hab]
      exact h2
  · rw [if_neg hab] at h1
    have h1' : a.stock < b.stock := of_decide_eq_true h1
    by_cases hbc : b.stock = c.stock
    · rw [if_neg (fun h => hab (h.trans hbc.symm)), ← hbc]
      exact h1
    · rw [if_neg hbc] at h2
      have h2' : b.stock < c.stock := of_decide_eq_true h2
      have h3 : a.stock < c.stock := lt_trans h1' h2'
      rw [if_neg (ne_of_lt h3)]
      exact decide_eq_true h3

instance : IsTotal Shipment (fun a b => shipLE a b = true) :=
  ⟨shipLE_total⟩

instance : IsTrans Shipment (fun a b => shipLE a b = true) :=
  ⟨shipLE_trans⟩

/-- Two shipments of the same row with the same (possibly missing) ETA tie
under the sequencer's key order. -/
theorem shipLE_of_tie (a b : Shipment) (hs : a.stock = b.stock)
    (he : a.eta = b.eta) : shipLE a b = true := by
  unfold shipLE
  rw [if_pos hs, he]
  match b.eta with
  | none => rfl
  | some d => exact dateLE_refl d

/-! ## Stability of the sequencer -/

/-- Mutually tied elements remain pairwise related after a filter. -/
theorem pairwise_filter_of_mutual {α : Type} (r : α → α → Prop) (p : α → Bool)
    (l : List α) (h : ∀ a b, p a = true → p b = true → r a b) :
    (l.filter p).Pairwise r := by
  induction l with
  | nil => exact List.Pairwise.nil
  | cons x xs ih =>
    by_cases hx : p x = true
    · rw [List.filter_cons_of_pos hx]
      exact List.Pairwise.cons (fun b hb => h x b hx (List.of_mem_filter hb)) ih
    · rw [List.filter_cons_of_neg (by simpa using hx)]
      exact ih

/-- Stability of the stable sort: the subsequence of mutually tied
elements is exactly preserved. -/
theorem insertionSort_filter_tie {α : Type} (r : α → α → Prop) [DecidableRel r]
    (l : List α) (p : α → Bool)
    (h : ∀ a b, p a = true → p b = true → r a b) :
    (List.insertionSort r l).filter p = l.filter p := by
  have hpw : (l.filter p).Pairwise r := pairwise_filter_of_mutual r p l h
  have hsub : List.Sublist (l.filter p) (List.insertionSort r l) :=
    List.sublist_insertionSort hpw (List.filter_sublist l)
  have hsub2 : List.Sublist ((l.filter p).filter p)
      ((List.insertionSort r l).filter p) :=
    hsub.filter p
  have hff : (l.filter p).filter p = l.filter p := by
    simp [List.filter_filter]
  have hperm : ((List.insertionSort r l).filter p).length = (l.filter p).length :=
    ((List.perm_insertionSort r l).filter p).length_eq
  have heq := hsub2.eq_of_length (by rw [hff, hperm])
  rw [hff] at heq
  exact heq.symm

/-- Strict matching commutes with a tie filter whose row is in the table:
usable records of one (row, ETA) tie class appear in their raw input
order. -/
theorem validShips_filter_tie (ships : List Shipment) (tkeys : List String)
    (s : String) (k : Option Date) (hs : s ∈ tkeys) :
    (validShips ships tkeys).filter
      (fun sh => decide (sh.stock = s ∧ sh.eta = k)) =
    ships.filter (fun sh => decide (sh.stock = s ∧ sh.eta = k)) := by
  unfold validShips
  rw [List.filter_filter]
  apply List.filter_congr
  intro sh _
  by_cases hp : sh.stock = s ∧ sh.eta = k
  · have hm : sh.stock ∈ tkeys := by rw [hp.1]; exact hs
    simp [hp, hm, hs]
  · simp [hp]

/-! ## Leftover report order and the validation gate -/

/-- The leftover report's stockcodes follow the (deterministic) stock
processing order: the report is a subsequence of the processed stock
list. -/
theorem allocLoop_leftovers_sublist (seq : List Shipment) (stocks : List String)
    (acc : RunResult) :
    List.Sublist ((allocLoop seq stocks acc).leftovers.map Prod.fst)
      (acc.leftovers.map Prod.fst ++ stocks) := by
  induction stocks generalizing acc with
  | nil =>
    rw [List.append_nil]
    exact List.Sublist.refl _
  | cons stock rest ih =>
    show List.Sublist ((allocLoop seq rest _).leftovers.map Prod.fst) _
    by_cases hlo : (processRow (seq.filter (fun sh => sh.stock == stock))
        (lookupRow acc.table stock) 0).leftover > 0
    · have h1 := ih
        { table := setRow acc.table stock (processRow
            (seq.filter (fun sh => sh.stock == stock)) (lookupRow acc.table stock) 0).cells
          leftovers := acc.leftovers ++ [(stock, (processRow
            (seq.filter (fun sh => sh.stock == stock)) (lookupRow acc.table stock) 0).leftover)]
          logs := acc.logs ++ [(stock, (processRow
            (seq.filter (fun sh => sh.stock == stock)) (lookupRow acc.table stock) 0).log)] }
      rw [if_pos hlo]
      refine List.Sublist.trans h1 ?_
      rw [List.map_append, List.append_assoc]
      exact List.Sublist.refl _
    · have h1 := ih
        { table := setRow acc.table stock (processRow
            (seq.filter (fun sh => sh.stock == stock)) (lookupRow acc.table stock) 0).cells
          leftovers := acc.leftovers
          logs := acc.logs ++ [(stock, (processRow
            (seq.filter (fun sh => sh.stock == stock)) (lookupRow acc.table stock) 0).log)] }
      rw [if_neg hlo]
      refine List.Sublist.trans h1 ?_
      exact List.Sublist.append_left (List.Sublist.cons stock (List.Sublist.refl rest)) _

/-- The Qty/SS gate stops the run exactly when some uploaded row has a
missing or non-positive Qty/SS. -/
theorem validateETA_none_iff (l : List RawShipment) :
    validateETA l = none ↔ ∃ r ∈ l, qpssOk r.qpss = false := by
  unfold validateETA
  by_cases h : l.all (fun r => qpssOk r.qpss) = true
  · rw [if_pos h]
    constructor
    · intro hc
      cases hc
    · rintro ⟨r, hr, hf⟩
      rw [List.all_eq_true] at h
      rw [h r hr] at hf
      cases hf
  · rw [if_neg h]
    constructor
    · intro _
      rw [List.all_eq_true] at h
      push_neg at h
      obtain ⟨r, hr, hf⟩ := h
      exact ⟨r, hr, by simpa using hf⟩
    · intro _
      rfl

/-- A validated upload passes every row through unchanged. -/
theorem validateETA_some (l : List RawShipment)
    (h : ∀ r ∈ l, qpssOk r.qpss = true) :
    validateETA l = some (l.map
      (fun r => ⟨r.stock, r.supplier, r.qty, r.qpss.getD 0, r.eta⟩)) := by
  unfold validateETA
  rw [if_pos (List.all_eq_true.2 h)]

/-- Unit mode of the spec-modelled step: no leftover is ever touched and
the number of requested placements is the raw quantity. -/
theorem processShipmentSpec_unit (r : RawShipment) (s : RowState)
    (h : r.qpss = none) :
    processShipmentSpec r s =
      (if r.qty ≤ 0 then s
       else placeN (markerOf r.supplier r.eta) r.qty.toNat s) := by
  unfold processShipmentSpec
  by_cases hq : r.qty ≤ 0
  · rw [if_pos hq, if_pos hq]
  · rw [if_neg hq, if_neg hq, h]
    rfl

/-- Under the validated preconditions the accumulated contributions are
exactly the remainders. -/
theorem sum_contrib_eq (ships : List Shipment)
    (hq : ∀ sh ∈ ships, 0 ≤ sh.qty) (hp : ∀ sh ∈ ships, 0 < sh.qpss) :
    (ships.map contribOf).sum = (ships.map remOf).sum := by
  induction ships with
  | nil => rfl
  | cons sh rest ih =>
    simp only [List.map_cons, List.sum_cons]
    rw [contribOf_eq_remOf sh (hq sh (List.mem_cons_self sh rest))
        (hp sh (List.mem_cons_self sh rest)),
      ih (fun x hx => hq x (List.mem_cons_of_mem sh hx))
        (fun x hx => hp x (List.mem_cons_of_mem sh hx))]

/-! ## The claims -/

/-- C1: in every allocation run, each cell the allocator fills was
classified `Empty` by the eligibility predicate immediately before its
single write, no (stockcode, column) cell is written more than once, and a
cell already holding a non-empty value (`Filled`/`Reserved`, e.g. the text
"Stock") keeps that value through the whole run. -/
theorem C1_no_double_write (t : List (String × List PyVal)) (ships : List Shipment) :
    (∀ p ∈ (allocRun t ships).logs, ∀ e ∈ p.2, cell_is_empty e.2 = true) ∧
    ((allocRun t ships).logs.flatMap
      (fun p => p.2.map (fun e => (p.1, e.1)))).Nodup ∧
    (∀ k i v, (lookupRow t k).get? i = some v → cell_is_empty v = false →
      (lookupRow (allocRun t ships).table k).get? i = some v) := by
  have hlg := allocLoop_logs_good (sequenced ships (t.map Prod.fst))
    (uniqList ((sequenced ships (t.map Prod.fst)).map (fun sh => sh.stock)))
    ⟨t, [], []⟩ (by simpa using uniqList_nodup _)
    (fun p hp => absurd hp (List.not_mem_nil p))
  exact ⟨fun p hp e he => (hlg.1 p hp).1 e he,
    logs_flat_nodup _ hlg.2 (fun p hp => (hlg.1 p hp).2),
    fun k i v hv hne => allocLoop_preserve _ _ ⟨t, [], []⟩ k i v hv hne⟩

theorem C1_no_double_write_witness :
    (lookupRow [("R1", [PyVal.pint 7])] "R1").get? 0 = some (PyVal.pint 7) ∧
    cell_is_empty (PyVal.pint 7) = false ∧
    (lookupRow (allocRun [("R1", [PyVal.pint 7])] []).table "R1").get? 0
      = some (PyVal.pint 7) :=
  ⟨rfl, rfl, (C1_no_double_write [("R1", [PyVal.pint 7])] []).2.2 "R1" 0
    (PyVal.pint 7) rfl rfl⟩

/-- C2: the allocator is deterministic — identical table and identical
shipment list give identical run results (output table, leftover report,
write log) and identical ignored reports; moreover the leftover report
lists stockcodes in the deterministic processing order (a subsequence of
the sorted distinct usable stockcodes), so no unordered iteration leaks
into the output. -/
theorem C2_deterministic (t1 t2 : List (String × List PyVal))
    (ships1 ships2 : List Shipment) (ht : t1 = t2) (hs : ships1 = ships2) :
    allocRun t1 ships1 = allocRun t2 ships2 ∧
    ignoredOf ships1 (t1.map Prod.fst) = ignoredOf ships2 (t2.map Prod.fst) ∧
    List.Sublist ((allocRun t1 ships1).leftovers.map Prod.fst)
      (uniqList ((sequenced ships1 (t1.map Prod.fst)).map (fun sh => sh.stock))) := by
  subst ht hs
  refine ⟨rfl, rfl, ?_⟩
  have h := allocLoop_leftovers_sublist (sequenced ships1 (t1.map Prod.fst))
    (uniqList ((sequenced ships1 (t1.map Prod.fst)).map (fun sh => sh.stock)))
    ⟨t1, [], []⟩
  simpa using h

theorem C2_deterministic_witness :
    ([("R1", [PyVal.pnone])] : List (String × List PyVal)) = [("R1", [PyVal.pnone])] ∧
    allocRun [("R1", [PyVal.pnone])] [] = allocRun [("R1", [PyVal.pnone])] [] :=
  ⟨rfl, (C2_deterministic [("R1", [PyVal.pnone])] [("R1", [PyVal.pnone])] [] []
    rfl rfl).1⟩

/-- C3: in shipset mode each processed shipment contributes
`slotsNeeded = floor(qty / qpss)` whole shipsets and a remainder
`rem = qty - slotsNeeded * qpss` that is added to the row's running
leftover exactly when positive; per row, placed shipsets (in pieces) plus
the leftover total conserve the quantities shipped. -/
theorem C3_conservation (ships : List Shipment) (cells : List PyVal) (lo : ℚ)
    (hq : ∀ sh ∈ ships, 0 ≤ sh.qty) (hp : ∀ sh ∈ ships, 0 < sh.qpss) :
    (∀ sh ∈ ships, setsOf sh = ⌊(sh.qty : ℚ) / sh.qpss⌋ ∧
      remOf sh = (sh.qty : ℚ) - (setsOf sh : ℚ) * sh.qpss ∧
      (∀ s, 0 < sh.qty → (processShipment sh s).leftover =
        (if 0 < remOf sh then s.leftover + remOf sh else s.leftover))) ∧
    (processRow ships cells lo).leftover = lo + (ships.map remOf).sum ∧
    (ships.map (fun sh => (setsOf sh : ℚ) * sh.qpss)).sum
      + ((processRow ships cells lo).leftover - lo)
      = (ships.map (fun sh => (sh.qty : ℚ))).sum := by
  have h2 : (processRow ships cells lo).leftover
      = lo + (ships.map remOf).sum := by
    rw [processRow_leftover, sum_contrib_eq ships hq hp]
  refine ⟨?_, h2, ?_⟩
  · intro sh hsh
    refine ⟨rfl, rfl, ?_⟩
    intro s hpos
    have hlo := (processShipment_spec sh s).1
    rw [hlo]
    unfold contribOf
    by_cases hr : 0 < remOf sh
    · rw [if_pos ⟨hpos, hr⟩, if_pos hr]
    · rw [if_neg (fun hh => hr hh.2), if_neg hr, add_zero]
  · rw [h2, add_sub_cancel_left]
    exact sum_sets_rem ships

theorem C3_conservation_witness :
    (∀ sh ∈ [(⟨"R1", "Sup1", 5, 2, none⟩ : Shipment),
      ⟨"R1", "Sup2", 2, 2, none⟩], 0 ≤ sh.qty) ∧
    (∀ sh ∈ [(⟨"R1", "Sup1", 5, 2, none⟩ : Shipment),
      ⟨"R1", "Sup2", 2, 2, none⟩], 0 < sh.qpss) ∧
    (processRow [⟨"R1", "Sup1", 5, 2, none⟩, ⟨"R1", "Sup2", 2, 2, none⟩]
        [PyVal.pnone, PyVal.pnone, PyVal.pnone] 0).leftover
      = 0 + ([(⟨"R1", "Sup1", 5, 2, none⟩ : Shipment),
          ⟨"R1", "Sup2", 2, 2, none⟩].map remOf).sum :=
  ⟨by decide, by decide,
    (C3_conservation [⟨"R1", "Sup1", 5, 2, none⟩, ⟨"R1", "Sup2", 2, 2, none⟩]
      [PyVal.pnone, PyVal.pnone, PyVal.pnone] 0 (by decide) (by decide)).2.1⟩

/-- C4: a shipment reaching a row with no remaining eligible cell is
dropped silently — no cell changes, no log entry, no error — while its
shipset remainder (and only that) still reaches the leftover report; the
leftover report never depends on the table's cell contents at all. -/
theorem C4_table_full (sh : Shipment) (s : RowState)
    (hfull : ∀ j (h : j < s.cells.length), s.idx ≤ j →
      cell_is_empty (s.cells.get ⟨j, h⟩) = false) :
    (processShipment sh s).cells = s.cells ∧
    (processShipment sh s).log = s.log ∧
    (processShipment sh s).leftover = s.leftover + contribOf sh ∧
    (∀ ships cells1 cells2 lo,
      (processRow ships cells1 lo).leftover
        = (processRow ships cells2 lo).leftover) := by
  obtain ⟨h1, h2, h3⟩ := processShipment_full sh s hfull
  refine ⟨h1, h2, h3, ?_⟩
  intro ships cells1 cells2 lo
  rw [processRow_leftover, processRow_leftover]

theorem C4_table_full_witness :
    (∀ j (h : j < (⟨[PyVal.pint 1], 0, 0, []⟩ : RowState).cells.length),
      (⟨[PyVal.pint 1], 0, 0, []⟩ : RowState).idx ≤ j →
      cell_is_empty ((⟨[PyVal.pint 1], 0, 0, []⟩ : RowState).cells.get ⟨j, h⟩)
        = false) ∧
    (processShipment ⟨"R1", "Sup1", 2, 2, none⟩
        (⟨[PyVal.pint 1], 0, 0, []⟩ : RowState)).log
      = (⟨[PyVal.pint 1], 0, 0, []⟩ : RowState).log :=
  ⟨by decide, (C4_table_full ⟨"R1", "Sup1", 2, 2, none⟩
    ⟨[PyVal.pint 1], 0, 0, []⟩ (by decide)).2.1⟩

/-- C5: within one row the cursor only moves forward: the logged column
indices of a whole group are strictly increasing (every later placement
lands strictly right of every earlier one), each shipment moves the cursor
weakly forward, and every new write of a shipment lands at or after the
cursor position it started from — never at a column already scanned. -/
theorem C5_cursor_monotone (ships : List Shipment) (cells : List PyVal) (lo : ℚ) :
    (((processRow ships cells lo).log.map Prod.fst).Pairwise (· < ·)) ∧
    (∀ sh s, s.idx ≤ (processShipment sh s).idx) ∧
    (∀ sh s e, e ∈ (processShipment sh s).log → e ∈ s.log ∨ s.idx ≤ e.1) := by
  refine ⟨(processRow_log_good ships cells lo).2, ?_, ?_⟩
  · intro sh s
    exact (processShipment_spec sh s).2.2.1
  · intro sh s e he
    obtain ⟨-, -, -, l, hlog, hent, -⟩ := processShipment_spec sh s
    rw [hlog] at he
    rcases List.mem_append.1 he with he | he
    · exact Or.inl he
    · exact Or.inr (hent e he).2.1

theorem C5_cursor_monotone_witness :
    ((0, PyVal.pnone) ∈ (processShipment ⟨"R1", "Sup1", -1, 2, none⟩
      (⟨[], 3, 0, [(0, PyVal.pnone)]⟩ : RowState)).log) ∧
    ((0, PyVal.pnone) ∈ (⟨[], 3, 0, [(0, PyVal.pnone)]⟩ : RowState).log ∨
      (⟨[], 3, 0, [(0, PyVal.pnone)]⟩ : RowState).idx ≤ 0) :=
  ⟨by decide, (C5_cursor_monotone [] [] 0).2.2 ⟨"R1", "Sup1", -1, 2, none⟩
    ⟨[], 3, 0, [(0, PyVal.pnone)]⟩ (0, PyVal.pnone) (by decide)⟩

/-- C6: the sequencer orders each row's shipments by ETA ascending with a
stable sort — the sequenced list is sorted under the (stockcode, ETA) key
order, and any tie class (same stockcode, equal or equally-missing ETA)
appears in exactly its raw input order. -/
theorem C6_sequencer_stable (ships : List Shipment) (tkeys : List String)
    (s : String) (k : Option Date) (hs : s ∈ tkeys) :
    (sequenced ships tkeys).Pairwise (fun a b => shipLE a b = true) ∧
    (sequenced ships tkeys).filter
        (fun sh => decide (sh.stock = s ∧ sh.eta = k))
      = ships.filter (fun sh => decide (sh.stock = s ∧ sh.eta = k)) := by
  constructor
  · exact List.sorted_insertionSort _ _
  · have hties : ∀ a b : Shipment,
        decide (a.stock = s ∧ a.eta = k) = true →
        decide (b.stock = s ∧ b.eta = k) = true → shipLE a b = true := by
      intro a b ha hb
      simp only [decide_eq_true_eq] at ha hb
      exact shipLE_of_tie a b (ha.1.trans hb.1.symm) (ha.2.trans hb.2.symm)
    show (List.insertionSort (fun a b => shipLE a b = true)
        (validShips ships tkeys)).filter _ = _
    rw [insertionSort_filter_tie (fun a b => shipLE a b = true)
      (validShips ships tkeys) _ hties]
    exact validShips_filter_tie ships tkeys s k hs

theorem C6_sequencer_stable_witness :
    ("R1" ∈ ["R1"]) ∧
    ((sequenced [(⟨"R1", "Sup1", 1, 2, none⟩ : Shipment),
        ⟨"R1", "Sup2", 1, 2, none⟩] ["R1"]).filter
        (fun sh => decide (sh.stock = "R1" ∧ sh.eta = none))
      = [(⟨"R1", "Sup1", 1, 2, none⟩ : Shipment),
        ⟨"R1", "Sup2", 1, 2, none⟩].filter
        (fun sh => decide (sh.stock = "R1" ∧ sh.eta = none))) :=
  ⟨by decide, (C6_sequencer_stable [⟨"R1", "Sup1", 1, 2, none⟩,
    ⟨"R1", "Sup2", 1, 2, none⟩] ["R1"] "R1" none (by decide)).2⟩

/-- C7: the ignored set is exactly the distinct shipment stockcodes absent
from the table — no false positives or negatives — emitted sorted and
without duplicates; the records kept for allocation are exactly those
whose stockcode is a table row. -/
theorem C7_ignored_set (ships : List Shipment) (tkeys : List String) :
    (∀ s, s ∈ ignoredOf ships tkeys ↔
      ((∃ sh ∈ ships, sh.stock = s) ∧ s ∉ tkeys)) ∧
    (ignoredOf ships tkeys).Sorted (· ≤ ·) ∧
    (ignoredOf ships tkeys).Nodup ∧
    validShips ships tkeys
      = ships.filter (fun sh => decide (sh.stock ∈ tkeys)) ∧
    (∀ sh, sh ∈ validShips ships tkeys ↔ (sh ∈ ships ∧ sh.stock ∈ tkeys)) := by
  refine ⟨?_, ?_, ?_, rfl, ?_⟩
  · intro s
    unfold ignoredOf
    rw [List.mem_insertionSort, mem_uniqList]
    simp only [List.mem_filter, List.mem_map, decide_eq_true_eq]
  · exact List.sorted_insertionSort _ _
  · exact ((List.perm_insertionSort _ _).nodup_iff).2
      (uniqList_nodup _)
  · intro sh
    unfold validShips
    rw [List.mem_filter]
    simp

theorem C8_counterexample :
    validateETA [⟨"R1", "Sup1", -5, some 2, none⟩]
      = some [⟨"R1", "Sup1", -5, 2, none⟩] ∧
    processShipment ⟨"R1", "Sup1", -5, 2, none⟩
        (⟨[PyVal.pnone], 0, 0, []⟩ : RowState)
      = (⟨[PyVal.pnone], 0, 0, []⟩ : RowState) := by
  constructor
  · rfl
  · rfl

/-- C8 (amended): a missing or non-positive Qty/SS does abort the whole
run before any allocation (the gate fails exactly on such rows), but a
negative-quantity record that passes the gate is not signalled — the
allocator silently skips it, leaving the row state untouched. -/
theorem C8_amended_validation (l : List RawShipment) (sh : Shipment)
    (s : RowState) (hq : sh.qty < 0) :
    (validateETA l = none ↔ ∃ r ∈ l, qpssOk r.qpss = false) ∧
    processShipment sh s = s :=
  ⟨validateETA_none_iff l, processShipment_eq_nonpos sh s (le_of_lt hq)⟩

theorem C8_amended_validation_witness :
    (-1 : ℤ) < 0 ∧
    ((validateETA [⟨"R1", "Sup1", 4, none, none⟩] = none ↔
      ∃ r ∈ [(⟨"R1", "Sup1", 4, none, none⟩ : RawShipment)],
        qpssOk r.qpss = false) ∧
     processShipment ⟨"R1", "Sup1", -1, 2, none⟩ (⟨[], 0, 0, []⟩ : RowState)
       = (⟨[], 0, 0, []⟩ : RowState)) :=
  ⟨by decide, C8_amended_validation [⟨"R1", "Sup1", 4, none, none⟩]
    ⟨"R1", "Sup1", -1, 2, none⟩ ⟨[], 0, 0, []⟩ (by decide)⟩

/-- C9 (spec-modelled unit mode): for a record with no piecesPerUnit the
spec's allocator step takes `slotsNeeded = quantityPieces` and produces no
leftover entry for that shipment. -/
theorem C9_unit_mode (r : RawShipment) (s : RowState) (h : r.qpss = none) :
    slotsNeededSpec r.qty r.qpss = r.qty ∧
    (processShipmentSpec r s).leftover = s.leftover := by
  constructor
  · rw [h]
    rfl
  · rw [processShipmentSpec_unit r s h]
    by_cases hq : r.qty ≤ 0
    · rw [if_pos hq]
    · rw [if_neg hq]
      exact (placeN_spec _ _ s).1

theorem C9_unit_mode_witness :
    (⟨"R1", "Sup1", 3, none, none⟩ : RawShipment).qpss = none ∧
    (slotsNeededSpec (3 : ℤ) none = 3 ∧
     (processShipmentSpec ⟨"R1", "Sup1", 3, none, none⟩
       (⟨[], 0, 5, []⟩ : RowState)).leftover = 5) :=
  ⟨rfl, C9_unit_mode ⟨"R1", "Sup1", 3, none, none⟩ ⟨[], 0, 5, []⟩ rfl⟩

/-- C10: the eligibility predicate holds exactly for `None`, NaN floats
and whitespace-only strings; a string cell is classified by its stripped
text, an eligible cell can be consumed by a placement, and a cell holding
any other value (a non-blank string such as "Stock", a float, an int) is
never empty, hence never overwritten. -/
theorem C10_eligibility (v : PyVal) :
    (cell_is_empty v = true ↔ (v = PyVal.pnone ∨ v = PyVal.nanFloat ∨
      ∃ w, v = PyVal.pstr w ∧ w.trim = "")) ∧
    (∀ w, cell_is_empty (PyVal.pstr w) = (w.trim == "")) ∧
    (∀ m lo, cell_is_empty v = true →
      placeN m 1 { cells := [v], idx := 0, leftover := lo, log := [] }
        = { cells := [m], idx := 1, leftover := lo, log := [(0, v)] }) ∧
    (∀ m n st i, st.cells.get? i = some v → cell_is_empty v = false →
      (placeN m n st).cells.get? i = some v) := by
  refine ⟨?_, fun w => rfl, ?_, ?_⟩
  · cases v with
    | pnone => simp [cell_is_empty]
    | nanFloat => simp [cell_is_empty]
    | pfloat q => simp [cell_is_empty]
    | pstr w => simp [cell_is_empty]
    | pint n => simp [cell_is_empty]
    | pobj n => simp [cell_is_empty]
  · intro m lo hv
    have hadv : advance [v] 0 = 0 := by
      rw [advance]
      simp [hv]
    rw [placeN]
    simp only [hadv]
    rw [dif_pos (by simp : (0 : ℕ) < [v].length)]
    rfl
  · intro m n st i hv hne
    exact placeN_preserve m n st i v hv hne

theorem C10_eligibility_witness :
    cell_is_empty PyVal.pnone = true ∧
    placeN (PyVal.pint 9) 1
        { cells := [PyVal.pnone], idx := 0, leftover := 0, log := [] }
      = { cells := [PyVal.pint 9], idx := 1, leftover := 0,
          log := [(0, PyVal.pnone)] } :=
  ⟨rfl, (C10_eligibility PyVal.pnone).2.2.1 (PyVal.pint 9) 0 rfl⟩
